import Mathlib

/-!
Shallow embedding of the Kubernetes `Reflector` core:
`src/kubernetes/reflector.rs` and `src/kubernetes/delayed_delete.rs`.

Machine integers do not appear in the modelled code paths; monotonic
instants (`std::time::Instant`) and durations are modelled as `Nat`.
The `state::Write` trait (an external capability) is modelled as a trace
of write operations appended to by the reflector.  The `resource_version`
module and the `watcher` contract are not part of the source tree here,
so they are modelled from the spec (see the doc comments below).
-/

/-- Object metadata as used by the reflector: only `uid` and
`resourceVersion` are consumed (`ObjectMeta` of `k8s_openapi`). -/
structure ObjectMeta where
  uid : Option String
  resourceVersion : Option String
deriving Repr, DecidableEq

/-- A watched object: carries optional metadata, mirroring the `Pod`-like
objects (`metadata: Option<ObjectMeta>`) used with the reflector. -/
structure Obj where
  metadata : Option ObjectMeta
deriving Repr, DecidableEq

/-- The `WatchEvent<T>` tagged union of `k8s_openapi`.  `ErrorOther`
stands for the remaining variants that the reflector's `process_event`
treats as unreachable (its `_` arm). -/
inductive WatchEvent (T : Type) where
  | Added (object : T)
  | Modified (object : T)
  | Deleted (object : T)
  | Bookmark (object : T)
  | ErrorOther
deriving Repr, DecidableEq

/-- The `WatchResponse<T>` of `k8s_openapi`: either a recognized event or
a well-formed but unrecognized payload. -/
inductive WatchResponse (T : Type) where
  | Ok (event : WatchEvent T)
  | Other
deriving Repr, DecidableEq

/-- The `WatchOptional` request options record sent on each watch
invocation. -/
structure WatchOptional where
  field_selector : Option String
  label_selector : Option String
  pretty : Option String
  resource_version : Option String
  timeout_seconds : Option Nat
  allow_watch_bookmarks : Option Bool
deriving Repr, DecidableEq

/-- One operation on the state writer (`state::Write` capability):
`add`, `update`, `delete` and the `resync` barrier. -/
inductive WriteOp (T : Type) where
  | add (o : T)
  | update (o : T)
  | delete (o : T)
  | resync
deriving Repr, DecidableEq

namespace resource_version

/-- Modelled from the spec: the `resource_version::Candidate` value (the
`resource_version` module is not part of the provided sources).  It wraps
the extracted resource-version string. -/
structure Candidate where
  version : String
deriving Repr, DecidableEq

/-- Modelled from the spec: the `resource_version::State` tracker, which
remembers the last committed resource version. -/
structure State where
  value : Option String
deriving Repr, DecidableEq

/-- Modelled from the spec: a fresh tracker holds no version. -/
def State.new : State := ⟨none⟩

/-- Modelled from the spec: `get()` returns the cursor to send on the
next watch invocation. -/
def State.get (s : State) : Option String := s.value

/-- Modelled from the spec: `update(candidate)` advances the cursor to
the candidate's version (unconditional overwrite). -/
def State.update (_s : State) (c : Candidate) : State := ⟨some c.version⟩

/-- Modelled from the spec: `reset()` clears the cursor so the next
`get` returns absent. -/
def State.reset (_s : State) : State := ⟨none⟩

/-- Modelled from the spec: `Candidate::from_watch_event` extracts
`metadata.resourceVersion` from the event's embedded object if present
and returns absent otherwise (unknown variants carry no object). -/
def Candidate.from_watch_event : WatchEvent Obj → Option Candidate
  | .Added o | .Modified o | .Deleted o | .Bookmark o =>
      (o.metadata.bind ObjectMeta.resourceVersion).map Candidate.mk
  | .ErrorOther => none

end resource_version

/-- The `DelayedDelete<T>` state: a FIFO queue of `(item, deadline)`
pairs plus the fixed `delay_for` duration.  Instants are `Nat`. -/
structure DelayedDelete (T : Type) where
  queue : List (T × Nat)
  delay_for : Nat
deriving Repr, DecidableEq

namespace DelayedDelete

/-- Create a new `DelayedDelete` state with an empty queue. -/
def new (delay_for : Nat) : DelayedDelete T := ⟨[], delay_for⟩

/-- Schedules the delayed deletion of the item: pushes
`(item, now + delay_for)` at the back of the queue. -/
def schedule_delete (dd : DelayedDelete T) (now : Nat) (item : T) :
    DelayedDelete T :=
  { dd with queue := dd.queue ++ [(item, now + dd.delay_for)] }

/-- Clear the delayed deletion requests. -/
def clear (dd : DelayedDelete T) : DelayedDelete T := { dd with queue := [] }

/-- Obtain the next deadline (the front entry's deadline, when any). -/
def next_deadline (dd : DelayedDelete T) : Option Nat :=
  dd.queue.head?.map Prod.snd

/-- The draining loop of `perform`: while the front deadline is not in
the future, pop the front entry and emit a `delete` write for it. -/
def performAux (now : Nat) : List (T × Nat) → List (T × Nat) × List (WriteOp T)
  | [] => ([], [])
  | (item, deadline) :: rest =>
    if deadline > now then ((item, deadline) :: rest, [])
    else
      let r := performAux now rest
      (r.1, WriteOp.delete item :: r.2)

/-- `perform(state_writer)`: drain every due front entry into the state
writer.  Returns the new queue state and the emitted write trace. -/
def perform (dd : DelayedDelete T) (now : Nat) :
    DelayedDelete T × List (WriteOp T) :=
  let r := performAux now dd.queue
  ({ dd with queue := r.1 }, r.2)

end DelayedDelete

/-- A suspension handle as produced by `next_deadline_delay`: either a
`delay_until(deadline)` sleep or the never-ready handle whose polling
panics (`async { panic }` in the source). -/
inductive Delay where
  | delayUntil (t : Nat)
  | never
deriving Repr, DecidableEq

/-- Poll a delay handle at an instant: a sleeping handle reports whether
its deadline has elapsed; polling the never-ready handle panics, which is
modelled as `none`. -/
def pollDelay (d : Delay) (now : Nat) : Option Bool :=
  match d with
  | .delayUntil t => some (t ≤ now)
  | .never => none

namespace DelayedDelete

/-- Obtain the next deadline in the form of a delay handle and a `Bool`;
the handle may only be polled when the `Bool` is `true`. -/
def next_deadline_delay (dd : DelayedDelete T) : Delay × Bool :=
  match dd.next_deadline with
  | some deadline => (.delayUntil deadline, true)
  | none => (.never, false)

end DelayedDelete

/-- The reflector state: configuration, the resource-version tracker, the
optional delayed-delete queue, and the state-writer trace standing for
the owned `state_writer` capability. -/
structure Reflector where
  field_selector : Option String
  label_selector : Option String
  resource_version : resource_version.State
  pause_between_requests : Nat
  delayed_delete : Option (DelayedDelete Obj)
  writer : List (WriteOp Obj)
deriving Repr, DecidableEq

namespace Reflector

/-- `Reflector::new`: fresh tracker, delayed deletes enabled exactly when
`delay_deletes_for` is present, empty write trace. -/
def new (field_selector label_selector : Option String)
    (pause_between_requests : Nat) (delay_deletes_for : Option Nat) :
    Reflector :=
  { field_selector := field_selector
    label_selector := label_selector
    resource_version := resource_version.State.new
    pause_between_requests := pause_between_requests
    delayed_delete := delay_deletes_for.map DelayedDelete.new
    writer := [] }

/-- The `WatchOptional` record built by `issue_request` before invoking
the watcher. -/
def issue_request_options (r : Reflector) : WatchOptional :=
  { field_selector := r.field_selector
    label_selector := r.label_selector
    pretty := none
    resource_version := r.resource_version.get
    timeout_seconds := none
    allow_watch_bookmarks := some true }

/-- `process_event`: translate a received watch event to the state
update.  Returns `none` when the unreachable `_` arm is hit (a panic). -/
def process_event (r : Reflector) (now : Nat) :
    WatchEvent Obj → Option Reflector
  | .Added object => some { r with writer := r.writer ++ [WriteOp.add object] }
  | .Deleted object =>
    match r.delayed_delete with
    | some dd =>
        some { r with delayed_delete := some (dd.schedule_delete now object) }
    | none => some { r with writer := r.writer ++ [WriteOp.delete object] }
  | .Modified object =>
      some { r with writer := r.writer ++ [WriteOp.update object] }
  | .Bookmark _ => some r
  | .ErrorOther => none

end Reflector

/-- Errors that can occur while watching (`reflector::Error`). -/
inductive Error (I S : Type) where
  | Invocation (source : I)
  | Streaming (source : S)
deriving Repr, DecidableEq

/-- Outcome of a step of the reflector's run loop: `ended` means the loop
continues (or the stream ended cleanly), `fatal` aborts the run with an
error, `panicked` models a process abort.  The reflector state at that
point is carried along. -/
inductive LoopResult (I S : Type) where
  | ended (r : Reflector)
  | fatal (e : Error I S) (r : Reflector)
  | panicked (msg : String) (r : Reflector)
deriving Repr, DecidableEq

namespace Reflector

/-- `process_stream_item`: unpack one item of the watch response stream,
dispatch the event and commit the resource-version candidate after the
dispatch. -/
def process_stream_item (r : Reflector) (now : Nat)
    (item : Except S (WatchResponse Obj)) : LoopResult I S :=
  match item with
  | .error source => .fatal (.Streaming source) r
  | .ok .Other => .ended r
  | .ok (.Ok event) =>
    match resource_version.Candidate.from_watch_event event with
    | none => .ended r
    | some candidate =>
      match r.process_event now event with
      | none => .panicked "other event types should never reach this code" r
      | some r' =>
          .ended
            { r' with
              resource_version := r'.resource_version.update candidate }

end Reflector

/-- One scheduling decision of the inner loop's cooperative select: the
delayed-delete branch fires, or the stream branch yields, at instant
`now`. -/
inductive InnerStep where
  | deadline (now : Nat)
  | item (now : Nat)
deriving Repr, DecidableEq

/-- The reflector's inner loop over one watch session, driven by a
schedule of select outcomes.  The delayed-delete branch is guarded by the
`Bool` of `next_deadline_delay` exactly as the `select` guard in the
source; the stream branch consumes the next item or breaks on stream
end. -/
def run_inner {I S : Type} :
    List InnerStep → Reflector → List (Except S (WatchResponse Obj)) →
    LoopResult I S
  | [], r, _ => .ended r
  | .deadline now :: rest, r, items =>
    match r.delayed_delete with
    | none => run_inner rest r items
    | some dd =>
      if (dd.next_deadline_delay).2 then
        match pollDelay (dd.next_deadline_delay).1 now with
        | none => .panicked "no deadline" r
        | some true =>
            run_inner rest
              { r with
                delayed_delete := some (dd.perform now).1
                writer := r.writer ++ (dd.perform now).2 }
              items
        | some false => run_inner rest r items
      else run_inner rest r items
  | .item _ :: _, r, [] => .ended r
  | .item now :: rest, r, i :: restItems =>
    match r.process_stream_item now i with
    | .ended r' => run_inner rest r' restItems
    | .fatal e r' => .fatal e r'
    | .panicked msg r' => .panicked msg r'

/-- Result of one watch invocation, as classified by the watcher
contract: a successful stream (a finite list of items), a desync, or any
other invocation failure. -/
inductive InvocationResult (I S : Type) where
  | ok (stream : List (Except S (WatchResponse Obj)))
  | desync (source : I)
  | other (source : I)

namespace Reflector

/-- One iteration of the reflector's outer run loop: handle the
invocation result, and on success drive the inner loop on the stream.
`ended` means the outer loop continues with the returned state. -/
def run_iteration {I S : Type} (r : Reflector) (inv : InvocationResult I S)
    (sched : List InnerStep) : LoopResult I S :=
  match inv with
  | .desync _ =>
      .ended
        { r with
          resource_version := r.resource_version.reset
          delayed_delete := r.delayed_delete.map DelayedDelete.clear
          writer := r.writer ++ [WriteOp.resync] }
  | .other source => .fatal (.Invocation source) r
  | .ok stream => run_inner sched r stream

end Reflector

/-! Helper lemmas about the delayed-delete queue. -/

/-- The draining loop computes a `dropWhile`/`takeWhile` split of the
queue at the predicate "deadline is due". -/
theorem DelayedDelete.performAux_eq {T : Type} (now : Nat)
    (l : List (T × Nat)) :
    DelayedDelete.performAux now l =
      (l.dropWhile (fun p => decide (p.2 ≤ now)),
       (l.takeWhile (fun p => decide (p.2 ≤ now))).map
         (fun p => WriteOp.delete p.1)) := by
  induction l with
  | nil => simp [DelayedDelete.performAux]
  | cons hd tl ih =>
    obtain ⟨item, d⟩ := hd
    by_cases h : d > now
    · have hd : ¬ d ≤ now := by omega
      simp [DelayedDelete.performAux, h, List.dropWhile_cons,
        List.takeWhile_cons, hd]
    · have hle : d ≤ now := by omega
      simp [DelayedDelete.performAux, h, List.dropWhile_cons,
        List.takeWhile_cons, hle, ih]

/-- Membership is preserved from `dropWhile` back to the whole list. -/
theorem mem_of_mem_dropWhile {α : Type} {p : α → Bool} :
    ∀ {l : List α} {x : α}, x ∈ l.dropWhile p → x ∈ l := by
  intro l
  induction l with
  | nil => intro x hx; simp at hx
  | cons a tl ih =>
    intro x hx
    rw [List.dropWhile_cons] at hx
    by_cases hp : p a = true
    · simp only [hp, if_true] at hx
      exact List.mem_cons_of_mem a (ih hx)
    · simp only [hp, if_false] at hx
      exact hx

/-- A chain is preserved by dropping a front segment. -/
theorem chain'_dropWhile {α : Type} {S : α → α → Prop} {p : α → Bool} :
    ∀ {l : List α}, List.Chain' S l → List.Chain' S (l.dropWhile p) := by
  intro l
  induction l with
  | nil => intro h; simp
  | cons a tl ih =>
    intro h
    rw [List.dropWhile_cons]
    by_cases hp : p a = true
    · simp only [hp, if_true]
      exact ih (List.chain'_cons'.mp h).2
    · simp only [hp, if_false]
      exact h

/-- Appending an upper bound to a non-decreasing list keeps it
non-decreasing. -/
theorem chain'_le_append_singleton {l : List Nat} {a : Nat}
    (hl : List.Chain' (· ≤ ·) l) (ha : ∀ x ∈ l, x ≤ a) :
    List.Chain' (· ≤ ·) (l ++ [a]) := by
  induction l with
  | nil => simp
  | cons b tl ih =>
    rw [List.cons_append]
    rcases tl with _ | ⟨c, tl'⟩
    · simp only [List.nil_append]
      exact List.chain'_cons.mpr
        ⟨ha b (List.mem_cons_self b _), List.chain'_singleton a⟩
    · rw [List.cons_append]
      refine List.chain'_cons.mpr ⟨(List.chain'_cons.mp hl).1, ?_⟩
      rw [← List.cons_append]
      exact ih (List.chain'_cons.mp hl).2
        (fun x hx => ha x (List.mem_cons_of_mem b hx))

/-- Claim C1: on a Desync invocation error the run loop does not
terminate: it continues with the resource-version cursor reset (so the
next request carries an absent `resource_version`), the delayed-delete
queue cleared when enabled, and a `resync` signalled to the state
writer. -/
theorem C1_desync_recovery {I S : Type} (r : Reflector) (source : I)
    (sched : List InnerStep) :
    ∃ r', r.run_iteration (I := I) (S := S) (.desync source) sched =
        .ended r' ∧
      r'.issue_request_options.resource_version = none ∧
      r'.delayed_delete = r.delayed_delete.map DelayedDelete.clear ∧
      (∀ dd : DelayedDelete Obj, dd.clear.queue = []) ∧
      r'.writer = r.writer ++ [WriteOp.resync] :=
  ⟨_, rfl, rfl, rfl, fun _ => rfl, rfl⟩

/-- Claim C2: `process_event` dispatches `Added` to the writer's `add`,
`Modified` to `update`, `Deleted` to the writer's `delete` when delayed
deletes are disabled and to `DelayedDelete.schedule_delete` (with no
direct writer delete) when enabled, treats `Bookmark` as a state no-op,
and aborts on any other variant. -/
theorem C2_process_event_dispatch (r : Reflector) (o : Obj) (now : Nat) :
    r.process_event now (.Added o) =
        some { r with writer := r.writer ++ [WriteOp.add o] } ∧
    r.process_event now (.Modified o) =
        some { r with writer := r.writer ++ [WriteOp.update o] } ∧
    r.process_event now (.Deleted o) =
        some (match r.delayed_delete with
          | some dd =>
              { r with delayed_delete := some (dd.schedule_delete now o) }
          | none => { r with writer := r.writer ++ [WriteOp.delete o] }) ∧
    r.process_event now (.Bookmark o) = some r ∧
    r.process_event now .ErrorOther = none := by
  refine ⟨rfl, rfl, ?_, rfl, rfl⟩
  cases h : r.delayed_delete <;> simp [Reflector.process_event, h]

/-- Claim C4: `perform` pops exactly the maximal front run of entries
whose deadline is due, emitting the writer's `delete` for each in FIFO
order, while the rest of the queue remains. -/
theorem C4_perform_drains_due_front_run {T : Type} (dd : DelayedDelete T)
    (now : Nat) :
    dd.perform now =
      ({ dd with queue := dd.queue.dropWhile (fun p => decide (p.2 ≤ now)) },
       (dd.queue.takeWhile (fun p => decide (p.2 ≤ now))).map
         (fun p => WriteOp.delete p.1)) := by
  simp [DelayedDelete.perform, DelayedDelete.performAux_eq]

/-- Claim C5: `clear` empties the queue, and the desync arm of the run
loop extends the write trace only with `resync` — the writer's `delete`
is never invoked for the discarded entries. -/
theorem C5_clear_discards_without_write {I S : Type} (dd : DelayedDelete Obj)
    (r : Reflector) (source : I) (sched : List InnerStep) :
    dd.clear.queue = [] ∧
    ∃ r',
      Reflector.run_iteration (I := I) (S := S)
          { r with delayed_delete := some dd } (.desync source) sched =
        .ended r' ∧
      r'.delayed_delete = some dd.clear ∧
      r'.writer = r.writer ++ [WriteOp.resync] :=
  ⟨rfl, _, rfl, rfl, rfl⟩

/-- Claim C8: every watch invocation carries
`allow_watch_bookmarks = true`, no `pretty`, no `timeout_seconds`, the
configured selectors forwarded unchanged, and the tracker's cursor as
`resource_version` — absent on a fresh reflector and after a reset. -/
theorem C8_request_options (r : Reflector) (fs ls : Option String)
    (p : Nat) (dl : Option Nat) :
    r.issue_request_options.allow_watch_bookmarks = some true ∧
    r.issue_request_options.pretty = none ∧
    r.issue_request_options.timeout_seconds = none ∧
    r.issue_request_options.field_selector = r.field_selector ∧
    r.issue_request_options.label_selector = r.label_selector ∧
    r.issue_request_options.resource_version = r.resource_version.get ∧
    (Reflector.new fs ls p dl).issue_request_options.field_selector = fs ∧
    (Reflector.new fs ls p dl).issue_request_options.label_selector = ls ∧
    (Reflector.new fs ls p dl).issue_request_options.resource_version = none ∧
    (∀ s : resource_version.State,
        (resource_version.State.reset s).get = none) :=
  ⟨rfl, rfl, rfl, rfl, rfl, rfl, rfl, rfl, rfl, fun _ => rfl⟩

/-- Claim C10: a stream error makes `process_stream_item` return the
fatal `Streaming` error with the reflector state — writer trace,
resource-version tracker and delayed-delete queue — exactly as it was. -/
theorem C10_stream_error_fatal_unchanged {I S : Type} (r : Reflector)
    (now : Nat) (source : S) :
    Reflector.process_stream_item (I := I) r now (.error source) =
      .fatal (.Streaming source) r := rfl

/-! Operation sequences over a delayed-delete queue, for the queue-order
invariant. -/

/-- One public operation on a `DelayedDelete` queue. -/
inductive DDOp (T : Type) where
  | schedule (item : T)
  | clear
  | perform
deriving Repr, DecidableEq

/-- Apply one timed operation to a queue: the `Nat` component is the
monotonic instant at which the call happens. -/
def applyOp {T : Type} (dd : DelayedDelete T) : Nat × DDOp T → DelayedDelete T
  | (now, .schedule item) => dd.schedule_delete now item
  | (_, .clear) => dd.clear
  | (now, .perform) => (dd.perform now).1

/-- Apply a sequence of timed operations in order. -/
def applyOps {T : Type} (dd : DelayedDelete T) (ops : List (Nat × DDOp T)) :
    DelayedDelete T :=
  ops.foldl applyOp dd

/-- Invariant of the delayed-delete queue at instant `t`: deadlines are
non-decreasing from front to back and all are at most `t + delay_for`. -/
def ddInv {T : Type} (dd : DelayedDelete T) (t : Nat) : Prop :=
  List.Chain' (· ≤ ·) (dd.queue.map Prod.snd) ∧
  ∀ p ∈ dd.queue, p.2 ≤ t + dd.delay_for

/-- The invariant is monotone in the observation instant. -/
theorem ddInv_mono {T : Type} {dd : DelayedDelete T} {t t' : Nat}
    (h : ddInv dd t) (ht : t ≤ t') : ddInv dd t' :=
  ⟨h.1, fun p hp => le_trans (h.2 p hp) (by omega)⟩

/-- Each operation performed at the invariant's instant preserves it. -/
theorem ddInv_applyOp {T : Type} {dd : DelayedDelete T} {t : Nat}
    (h : ddInv dd t) (op : DDOp T) : ddInv (applyOp dd (t, op)) t := by
  obtain ⟨hchain, hbound⟩ := h
  cases op with
  | schedule item =>
    refine ⟨?_, ?_⟩
    · simp only [applyOp, DelayedDelete.schedule_delete, List.map_append,
        List.map_cons, List.map_nil]
      refine chain'_le_append_singleton hchain ?_
      intro x hx
      obtain ⟨p, hp, hpx⟩ := List.mem_map.mp hx
      exact hpx ▸ hbound p hp
    · intro p hp
      simp only [applyOp, DelayedDelete.schedule_delete, List.mem_append,
        List.mem_singleton] at hp
      rcases hp with hp | hp
      · simpa [applyOp, DelayedDelete.schedule_delete] using hbound p hp
      · subst hp; simp [applyOp, DelayedDelete.schedule_delete]
  | clear => exact ⟨by simp [applyOp, DelayedDelete.clear], by
      simp [applyOp, DelayedDelete.clear]⟩
  | perform =>
    refine ⟨?_, ?_⟩
    · have hq : (applyOp dd (t, DDOp.perform)).queue =
          dd.queue.dropWhile (fun p => decide (p.2 ≤ t)) := by
        simp [applyOp, DelayedDelete.perform, DelayedDelete.performAux_eq]
      rw [hq]
      have h1 := (List.chain'_map (Prod.snd (α := T) (β := Nat))).mp hchain
      exact (List.chain'_map Prod.snd).mpr (chain'_dropWhile h1)
    · intro p hp
      have hq : (applyOp dd (t, DDOp.perform)).queue =
          dd.queue.dropWhile (fun p => decide (p.2 ≤ t)) := by
        simp [applyOp, DelayedDelete.perform, DelayedDelete.performAux_eq]
      rw [hq] at hp
      have : (applyOp dd (t, DDOp.perform)).delay_for = dd.delay_for := by
        simp [applyOp, DelayedDelete.perform]
      rw [this]
      exact hbound p (mem_of_mem_dropWhile hp)

/-- Running a monotonically timed operation sequence from an invariant
state keeps the queue's deadlines non-decreasing. -/
theorem applyOps_inv {T : Type} :
    ∀ (ops : List (Nat × DDOp T)) (dd : DelayedDelete T) (t : Nat),
      ddInv dd t → List.Chain' (· ≤ ·) (t :: ops.map Prod.fst) →
      List.Chain' (· ≤ ·) ((applyOps dd ops).queue.map Prod.snd) := by
  intro ops
  induction ops with
  | nil => intro dd t hInv _; exact hInv.1
  | cons hd rest ih =>
    intro dd t hInv hch
    obtain ⟨t', op⟩ := hd
    simp only [List.map_cons] at hch
    have hle : t ≤ t' := (List.chain'_cons.mp hch).1
    have hch' : List.Chain' (· ≤ ·) (t' :: rest.map Prod.fst) :=
      (List.chain'_cons.mp hch).2
    have hInv' : ddInv (applyOp dd (t', op)) t' :=
      ddInv_applyOp (ddInv_mono hInv hle) op
    have : applyOps dd ((t', op) :: rest) = applyOps (applyOp dd (t', op)) rest :=
      rfl
    rw [this]
    exact ih (applyOp dd (t', op)) t' hInv' hch'

/-- Claim C9: for every sequence of `schedule_delete`, `clear` and
`perform` calls at non-decreasing instants and a fixed `delay_for`, the
deadlines stored in the queue are non-decreasing from front to back. -/
theorem C9_deadlines_nondecreasing {T : Type} (df : Nat)
    (ops : List (Nat × DDOp T))
    (h : List.Chain' (fun a b => a.1 ≤ b.1) ops) :
    List.Sorted (· ≤ ·)
      ((applyOps (DelayedDelete.new df) ops).queue.map Prod.snd) := by
  have hch : List.Chain' (· ≤ ·) ((0 : Nat) :: ops.map Prod.fst) := by
    rw [List.chain'_cons']
    exact ⟨fun y _ => Nat.zero_le y, (List.chain'_map Prod.fst).mpr h⟩
  have hInv : ddInv (DelayedDelete.new (T := T) df) 0 :=
    ⟨by simp [DelayedDelete.new], by simp [DelayedDelete.new]⟩
  exact List.chain'_iff_pairwise.mp (applyOps_inv ops (DelayedDelete.new df) 0 hInv hch)

/-- Witness for claim C9 at a concrete operation sequence with a tie of
deadlines. -/
theorem C9_deadlines_nondecreasing_witness :
    List.Chain' (fun a b => a.1 ≤ b.1)
      [((0 : Nat), DDOp.schedule (0 : Nat)), (2, .schedule 1), (5, .perform),
        (7, .schedule 2), (7, .schedule 3), (9, .clear), (10, .schedule 4)] ∧
    List.Sorted (· ≤ ·)
      ((applyOps (DelayedDelete.new 3)
        [((0 : Nat), DDOp.schedule (0 : Nat)), (2, .schedule 1), (5, .perform),
          (7, .schedule 2), (7, .schedule 3), (9, .clear),
          (10, .schedule 4)]).queue.map Prod.snd) :=
  ⟨by simp [List.chain'_cons, List.chain'_singleton],
    C9_deadlines_nondecreasing 3 _
      (by simp [List.chain'_cons, List.chain'_singleton])⟩

/-! Helper lemmas about `process_stream_item` and the inner loop. -/

/-- The only panic `process_stream_item` can raise is the unreachable
arm of `process_event`. -/
theorem process_stream_item_panicked_msg {I S : Type} {r : Reflector}
    {now : Nat} {item : Except S (WatchResponse Obj)} {msg : String}
    {r' : Reflector}
    (h : Reflector.process_stream_item (I := I) r now item =
      .panicked msg r') :
    msg = "other event types should never reach this code" := by
  cases item with
  | error s => simp [Reflector.process_stream_item] at h
  | ok resp =>
    cases resp with
    | Other => simp [Reflector.process_stream_item] at h
    | Ok event =>
      simp only [Reflector.process_stream_item] at h
      rcases hc : resource_version.Candidate.from_watch_event event with _ | c
      · simp only [hc] at h
        exact absurd h (by simp)
      · simp only [hc] at h
        rcases hp : r.process_event now event with _ | r2
        · simp only [hp] at h
          injection h with h1 _
          exact h1.symm
        · simp only [hp] at h
          exact absurd h (by simp)

/-- `process_stream_item` returns a fatal result exactly for a stream
error, with the `Streaming` error and the state untouched. -/
theorem process_stream_item_fatal_inv {I S : Type} {r : Reflector}
    {now : Nat} {item : Except S (WatchResponse Obj)} {e : Error I S}
    {r' : Reflector}
    (h : Reflector.process_stream_item (I := I) r now item = .fatal e r') :
    ∃ source, item = Except.error source ∧ e = .Streaming source ∧ r' = r := by
  cases item with
  | error s =>
    simp only [Reflector.process_stream_item] at h
    injection h with h1 h2
    exact ⟨s, rfl, h1.symm, h2.symm⟩
  | ok resp =>
    cases resp with
    | Other => simp [Reflector.process_stream_item] at h
    | Ok event =>
      simp only [Reflector.process_stream_item] at h
      rcases hc : resource_version.Candidate.from_watch_event event with _ | c
      · simp only [hc] at h
        exact absurd h (by simp)
      · simp only [hc] at h
        rcases hp : r.process_event now event with _ | r2
        · simp only [hp] at h
          exact absurd h (by simp)
        · simp only [hp] at h
          exact absurd h (by simp)

/-- When the guard of `next_deadline_delay` is set, the handle is a
sleep until the front deadline. -/
theorem next_deadline_delay_true {T : Type} {dd : DelayedDelete T}
    (h : (dd.next_deadline_delay).2 = true) :
    ∃ d, dd.next_deadline = some d ∧
      dd.next_deadline_delay = (Delay.delayUntil d, true) := by
  rcases hn : dd.next_deadline with _ | d
  · simp [DelayedDelete.next_deadline_delay, hn] at h
  · exact ⟨d, rfl, by simp [DelayedDelete.next_deadline_delay, hn]⟩

/-- Every panic of the inner loop carries the unreachable-arm message:
in particular the never-ready delay handle is never polled. -/
theorem run_inner_panicked_msg {I S : Type} :
    ∀ (sched : List InnerStep) (r : Reflector)
      (items : List (Except S (WatchResponse Obj))) (msg : String)
      (r' : Reflector),
      run_inner (I := I) sched r items = .panicked msg r' →
      msg = "other event types should never reach this code" := by
  intro sched
  induction sched with
  | nil =>
    intro r items msg r' h
    simp [run_inner] at h
  | cons step rest ih =>
    intro r items msg r' h
    cases step with
    | deadline now =>
      simp only [run_inner] at h
      rcases hdd : r.delayed_delete with _ | dd <;> simp only [hdd] at h
      · exact ih _ _ _ _ h
      · by_cases hb : (dd.next_deadline_delay).2 = true
        · obtain ⟨d, _, hnd⟩ := next_deadline_delay_true hb
          rw [hnd] at h
          by_cases hdn : d ≤ now <;> simp [pollDelay, hdn] at h <;>
            exact ih _ _ _ _ h
        · simp only [Bool.not_eq_true] at hb
          simp only [hb, Bool.false_eq_true, if_false] at h
          exact ih _ _ _ _ h
    | item now =>
      cases items with
      | nil => simp [run_inner] at h
      | cons i restItems =>
        simp only [run_inner] at h
        rcases hp : Reflector.process_stream_item (I := I) r now i
            with r1 | ⟨e1, r1⟩ | ⟨m1, r1⟩
        · simp only [hp] at h
          exact ih _ _ _ _ h
        · simp only [hp] at h
          exact absurd h (by simp)
        · simp only [hp] at h
          injection h with h1 _
          rw [← h1]
          exact process_stream_item_panicked_msg hp

/-- A fatal exit of the inner loop is a `Streaming` error caused by an
error item of the session's stream. -/
theorem run_inner_fatal_inv {I S : Type} :
    ∀ (sched : List InnerStep) (r : Reflector)
      (items : List (Except S (WatchResponse Obj))) (e : Error I S)
      (r' : Reflector),
      run_inner (I := I) sched r items = .fatal e r' →
      ∃ source, e = .Streaming source ∧ Except.error source ∈ items := by
  intro sched
  induction sched with
  | nil =>
    intro r items e r' h
    simp [run_inner] at h
  | cons step rest ih =>
    intro r items e r' h
    cases step with
    | deadline now =>
      simp only [run_inner] at h
      rcases hdd : r.delayed_delete with _ | dd <;> simp only [hdd] at h
      · exact ih _ _ _ _ h
      · by_cases hb : (dd.next_deadline_delay).2 = true
        · obtain ⟨d, _, hnd⟩ := next_deadline_delay_true hb
          rw [hnd] at h
          by_cases hdn : d ≤ now <;> simp [pollDelay, hdn] at h <;>
            exact ih _ _ _ _ h
        · simp only [Bool.not_eq_true] at hb
          simp only [hb, Bool.false_eq_true, if_false] at h
          exact ih _ _ _ _ h
    | item now =>
      cases items with
      | nil => simp [run_inner] at h
      | cons i restItems =>
        simp only [run_inner] at h
        rcases hp : Reflector.process_stream_item (I := I) r now i
            with r1 | ⟨e1, r1⟩ | ⟨m1, r1⟩
        · simp only [hp] at h
          obtain ⟨src, he, hmem⟩ := ih _ _ _ _ h
          exact ⟨src, he, List.mem_cons_of_mem _ hmem⟩
        · simp only [hp] at h
          obtain ⟨src, hi, he, _⟩ := process_stream_item_fatal_inv hp
          injection h with h1 _
          refine ⟨src, ?_, ?_⟩
          · rw [← h1]; exact he
          · rw [hi]; exact List.mem_cons_self _ _
        · simp only [hp] at h
          exact absurd h (by simp)

/-- Claim C3: the cursor is advanced exactly for a recognized event
carrying an extractable resource version (Bookmark included): an `Other`
response or a version-less event leaves the reflector unchanged, and the
candidate is committed on top of the state produced by the `processEvent`
dispatch. -/
theorem C3_cursor_advance {I S : Type} (r : Reflector) (now : Nat)
    (event : WatchEvent Obj) (o : Obj) :
    Reflector.process_stream_item (I := I) (S := S) r now (.ok .Other) =
      .ended r ∧
    (resource_version.Candidate.from_watch_event event = none →
      Reflector.process_stream_item (I := I) (S := S) r now (.ok (.Ok event)) =
        .ended r) ∧
    (∀ c, resource_version.Candidate.from_watch_event event = some c →
      ∃ r', r.process_event now event = some r' ∧
        r'.resource_version = r.resource_version ∧
        Reflector.process_stream_item (I := I) (S := S) r now
            (.ok (.Ok event)) =
          .ended { r' with
            resource_version := r'.resource_version.update c }) ∧
    (∀ c, resource_version.Candidate.from_watch_event (.Bookmark o) = some c →
      Reflector.process_stream_item (I := I) (S := S) r now
          (.ok (.Ok (.Bookmark o))) =
        .ended { r with
          resource_version := r.resource_version.update c }) := by
  refine ⟨rfl, ?_, ?_, ?_⟩
  · intro h
    simp [Reflector.process_stream_item, h]
  · intro c hc
    cases event with
    | ErrorOther => simp [resource_version.Candidate.from_watch_event] at hc
    | Added o' =>
      refine ⟨_, rfl, rfl, ?_⟩
      simp [Reflector.process_stream_item, hc, Reflector.process_event]
    | Modified o' =>
      refine ⟨_, rfl, rfl, ?_⟩
      simp [Reflector.process_stream_item, hc, Reflector.process_event]
    | Bookmark o' =>
      refine ⟨r, rfl, rfl, ?_⟩
      simp [Reflector.process_stream_item, hc, Reflector.process_event]
    | Deleted o' =>
      rcases hdd : r.delayed_delete with _ | dd
      · refine ⟨{ r with writer := r.writer ++ [WriteOp.delete o'] }, ?_, rfl, ?_⟩
        · simp [Reflector.process_event, hdd]
        · simp [Reflector.process_stream_item, hc, Reflector.process_event, hdd]
      · refine ⟨{ r with delayed_delete := some (dd.schedule_delete now o') },
          ?_, rfl, ?_⟩
        · simp [Reflector.process_event, hdd]
        · simp [Reflector.process_stream_item, hc, Reflector.process_event, hdd]
  · intro c hc
    simp [Reflector.process_stream_item, hc, Reflector.process_event]

/-- Witness for claim C3: a Bookmark event with a resource version
advances the cursor without any state-writer mutation. -/
theorem C3_cursor_advance_witness :
    Reflector.process_stream_item (I := Nat) (S := Nat)
        (Reflector.new none none 1 none) 0
        (.ok (.Ok (.Bookmark (Obj.mk (some (ObjectMeta.mk none (some "50"))))))) =
      .ended { Reflector.new none none 1 none with
        resource_version :=
          (Reflector.new none none 1 none).resource_version.update ⟨"50"⟩ } :=
  (C3_cursor_advance (Reflector.new none none 1 none) 0
      (.Bookmark (Obj.mk (some (ObjectMeta.mk none (some "50")))))
      (Obj.mk (some (ObjectMeta.mk none (some "50"))))).2.2.2 ⟨"50"⟩ rfl

/-- Claim C6: `next_deadline_delay` pairs a sleep completing at the
front deadline with `true` on a non-empty queue and the never-ready
handle with `false` on an empty one, and the inner loop's guard
(`, if` in the select) keeps the never-ready handle from being polled:
the "no deadline" panic is unreachable. -/
theorem C6_guarded_deadline_delay {T I S : Type} (df : Nat) :
    (∀ (item : T) (d : Nat) (rest : List (T × Nat)),
      (DelayedDelete.mk ((item, d) :: rest) df).next_deadline_delay =
        (Delay.delayUntil d, true)) ∧
    (DelayedDelete.mk ([] : List (T × Nat)) df).next_deadline_delay =
      (Delay.never, false) ∧
    (∀ (sched : List InnerStep) (r : Reflector)
        (items : List (Except S (WatchResponse Obj))) (r' : Reflector),
      run_inner (I := I) sched r items ≠ .panicked "no deadline" r') := by
  refine ⟨fun item d rest => rfl, rfl, ?_⟩
  intro sched r items r' h
  have hmsg := run_inner_panicked_msg sched r items _ r' h
  exact absurd hmsg (by decide)

/-- Witness for claim C6 at a concrete queue and schedule. -/
theorem C6_guarded_deadline_delay_witness :
    (DelayedDelete.mk [((0 : Nat), (5 : Nat))] 3).next_deadline_delay =
      (Delay.delayUntil 5, true) ∧
    (DelayedDelete.mk ([] : List (Nat × Nat)) 3).next_deadline_delay =
      (Delay.never, false) ∧
    run_inner (I := Nat) (S := Nat) [.deadline 0]
        (Reflector.new none none 1 (some 3)) [] ≠
      .panicked "no deadline" (Reflector.new none none 1 (some 3)) :=
  ⟨(C6_guarded_deadline_delay (T := Nat) (I := Nat) (S := Nat) 3).1 0 5 [],
   (C6_guarded_deadline_delay (T := Nat) (I := Nat) (S := Nat) 3).2.1,
   (C6_guarded_deadline_delay (T := Nat) (I := Nat) (S := Nat) 3).2.2
     [.deadline 0] (Reflector.new none none 1 (some 3)) []
     (Reflector.new none none 1 (some 3))⟩

/-- Claim C7: the run loop exits only through the fatal errors — a
non-desync invocation failure becomes `Invocation`, a mid-stream error
becomes `Streaming`; desync continues the loop, and every fatal exit of
an iteration is one of those two causes. -/
theorem C7_fatal_exits_only {I S : Type} (r : Reflector)
    (inv : InvocationResult I S) (sched : List InnerStep) :
    (∀ source, inv = .desync source →
      ∃ r', r.run_iteration inv sched = .ended r') ∧
    (∀ source, inv = .other source →
      r.run_iteration inv sched = .fatal (.Invocation source) r) ∧
    (∀ (e : Error I S) (r' : Reflector),
      r.run_iteration inv sched = .fatal e r' →
      (∃ source, inv = .other source ∧ e = .Invocation source) ∨
      (∃ source stream, inv = .ok stream ∧ e = .Streaming source ∧
        Except.error source ∈ stream)) := by
  refine ⟨?_, ?_, ?_⟩
  · intro source hs
    subst hs
    exact ⟨_, rfl⟩
  · intro source hs
    subst hs
    rfl
  · intro e r' h
    cases inv with
    | desync s => simp [Reflector.run_iteration] at h
    | other s =>
      simp only [Reflector.run_iteration] at h
      injection h with h1 _
      exact Or.inl ⟨s, rfl, h1.symm⟩
    | ok stream =>
      simp only [Reflector.run_iteration] at h
      obtain ⟨src, he, hmem⟩ := run_inner_fatal_inv sched r stream e r' h
      exact Or.inr ⟨src, stream, rfl, he, hmem⟩

/-- Witness for claim C7: a non-desync invocation failure exits with
`Invocation`. -/
theorem C7_fatal_exits_only_witness :
    (Reflector.new none none 1 none).run_iteration (I := Nat) (S := Nat)
        (.other 7) [] =
      .fatal (.Invocation 7) (Reflector.new none none 1 none) :=
  (C7_fatal_exits_only (Reflector.new none none 1 none) (.other 7) []).2.1 7 rfl
